import Mathlib

/-!
Shallow embedding of the person-detection pipeline in src/main.rs:
OpenCV rectangles with their intersection semantics, the pairwise
non-maximum suppression routine, the per-frame identity tracker over a
registry of tracked persons, and the change-gated publish dispatcher.

Machine `f32` arithmetic is modelled by exact rationals.  The one
division in the source, `intersection.area() as f32 / union as f32`,
can produce NaN only in the 0/0 case; there the comparison
`NaN > threshold` is `false`, which coincides with the rational
convention `0 / 0 = 0` (`0 > threshold` is also false for positive
thresholds), so the drop decision is unaffected by the model.

The Rust `HashMap<usize, Person>` is modelled as an association list;
its unspecified iteration order becomes the list order.
-/

/-- An axis-aligned rectangle, mirroring `opencv::core::Rect` (i32 fields). -/
structure Rect where
  x : Int
  y : Int
  width : Int
  height : Int
deriving DecidableEq

/-- `Rect::area()` = width * height. -/
def Rect.area (r : Rect) : Int := r.width * r.height

def rectZero : Rect := ⟨0, 0, 0, 0⟩

/-- Integer maximum, written out so that concrete instances reduce in the
kernel. -/
def maxI (a b : Int) : Int := if a ≤ b then b else a

/-- Integer minimum, written out so that concrete instances reduce in the
kernel. -/
def minI (a b : Int) : Int := if a ≤ b then a else b

/-- OpenCV rectangle intersection (`r1 & r2`): corner-wise max/min,
collapsing to the all-zero rectangle when the overlap is empty. -/
def Rect.inter (a b : Rect) : Rect :=
  let x1 := maxI a.x b.x
  let y1 := maxI a.y b.y
  let w := minI (a.x + a.width) (b.x + b.width) - x1
  let h := minI (a.y + a.height) (b.y + b.height) - y1
  if w ≤ 0 ∨ h ≤ 0 then rectZero else ⟨x1, y1, w, h⟩

/-- The IoU value computed inside `non_maximum_suppression`:
`intersection.area() / (rect1.area() + rect2.area() - intersection.area())`,
the exact rational quotient of the two integer areas (`Rat.divInt` yields 0
on a zero denominator; the source's f32 division yields NaN there, and
`NaN > threshold` is false exactly as `0 > threshold` is for the positive
thresholds used). -/
def iou (a b : Rect) : ℚ :=
  let interArea := (Rect.inter a b).area
  let unionArea := a.area + b.area - interArea
  Rat.divInt interArea unionArea

/-- The inner loop of `non_maximum_suppression`: box `i` is dropped when
some `j ≠ i` has IoU with it strictly above the threshold (the source
breaks at the first such `j`; `any` has the same value). -/
def dominated (boxes : List Rect) (threshold : ℚ) (i : Nat) : Bool :=
  (List.range boxes.length).any fun j =>
    decide (j ≠ i) && decide (threshold < iou (boxes.getD i rectZero) (boxes.getD j rectZero))

/-- `non_maximum_suppression` from src/main.rs: keep, in input order,
every box not dominated by a peer. -/
def non_maximum_suppression (boxes : List Rect) (threshold : ℚ) : List Rect :=
  ((List.range boxes.length).filter fun i => ! dominated boxes threshold i).map
    fun i => boxes.getD i rectZero

/-- The IoU formula exactly as the spec states it:
area(i∩j) / (area(i)+area(j)−area(i∩j)), with field division on ℚ. -/
def iouSpec (a b : Rect) : ℚ :=
  ((Rect.inter a b).area : ℚ) /
    ((a.area : ℚ) + (b.area : ℚ) - ((Rect.inter a b).area : ℚ))

/-- Rational minimum, written out so that concrete instances reduce in the
kernel; models `f32::min` on the non-NaN values that occur here. -/
def minq (a b : ℚ) : ℚ := if a ≤ b then a else b

/-- The `Person` struct of src/main.rs (f32 confidence modelled by ℚ). -/
structure Person where
  id : Nat
  confidence_percentage : ℚ
  bbox : Rect
deriving DecidableEq

/-- `Person::eq`: identities equal AND the boxes have positive
intersection area.  Confidence is not compared. -/
def personEq (p q : Person) : Bool :=
  p.id == q.id && decide (0 < (Rect.inter p.bbox q.bbox).area)

/-- The `HashMap<usize, Person>` registry, modelled as an association
list; the map's unspecified iteration order becomes the list order. -/
abbrev Registry := List (Nat × Person)

/-- `HashMap::get` on the registry model. -/
def lookupReg : Registry → Nat → Option Person
  | [], _ => none
  | kp :: rest, k => if kp.1 = k then some kp.2 else lookupReg rest k

/-- `HashMap::insert`: replace the entry with this key if present,
otherwise add a new entry. -/
def insertReg : Registry → Nat → Person → Registry
  | [], k, p => [(k, p)]
  | kp :: rest, k, p => if kp.1 = k then (k, p) :: rest else kp :: insertReg rest k p

/-- `HashMap` equality as Rust derives it for `HashMap<usize, Person>`:
same length, and every entry of the left map is matched by the entry
of the right map under the same key, values compared with `Person::eq`. -/
def mapEqB (a b : Registry) : Bool :=
  (a.length == b.length) && a.all fun kp =>
    match lookupReg b kp.1 with
    | some w => personEq kp.2 w
    | none => false

/-- Confidence heuristic: `(rect.area() as f32) / 1000.0` clamped by
`.min(100.0)`. -/
def confidenceOf (r : Rect) : ℚ := minq (Rat.divInt r.area 1000) 100

/-- The minimum-size filter: `rect.width > 60 && rect.height > 120`. -/
def qualifies (r : Rect) : Bool := decide (60 < r.width) && decide (120 < r.height)

/-- The matching loop over the previous registry: first entry (in
iteration order) whose box has positive intersection area with the
current box, with `(person.bbox & rect).area() > 0` as in the source. -/
def firstOverlapId : Registry → Rect → Option Nat
  | [], _ => none
  | kp :: rest, r =>
    if 0 < (Rect.inter kp.2.bbox r).area then some kp.1 else firstOverlapId rest r

/-- One iteration of the `for rect in filtered_boxes` loop: the
accumulator carries the new map under construction and the
`next_person_id` counter. -/
def trackOne (prev : Registry) (acc : Registry × Nat) (rect : Rect) : Registry × Nat :=
  let conf := confidenceOf rect
  if qualifies rect then
    match firstOverlapId prev rect with
    | some k => (insertReg acc.1 k ⟨k, conf, rect⟩, acc.2)
    | none => (insertReg acc.1 acc.2 ⟨acc.2, conf, rect⟩, acc.2 + 1)
  else acc

/-- The shared mutable state of the loop: `prev_people_map` and
`next_person_id`. -/
structure TrackState where
  prevMap : Registry
  nextId : Nat
deriving DecidableEq

/-- What one frame's critical section produces: the freshly built
`new_people_map`, the `has_changed` flag, and the updated shared state. -/
structure FrameResult where
  newMap : Registry
  hasChanged : Bool
  state : TrackState
deriving DecidableEq

/-- The per-frame tracking step (the critical section of the main loop),
applied to the suppressed box list `filtered`.  Empty `filtered`: clear
the registry, reset the counter to 1 and signal a change only when the
registry was non-empty.  Otherwise rebuild the map from scratch with
`trackOne` and signal a change when the new map differs from the old
one under `HashMap` equality. -/
def trackFrame (st : TrackState) (filtered : List Rect) : FrameResult :=
  if filtered.isEmpty then
    if st.prevMap.isEmpty then ⟨[], false, st⟩
    else ⟨[], true, ⟨[], 1⟩⟩
  else
    let built := filtered.foldl (trackOne st.prevMap) ([], st.nextId)
    let changed := ! mapEqB st.prevMap built.1
    ⟨built.1, changed, ⟨built.1, built.2⟩⟩

/-- Two-decimal rendering of a confidence value, modelling the `{:.2}`
format specifier (round to the nearest hundredth). -/
def fmt2 (q : ℚ) : String :=
  let n : Int := round (q * 100)
  let whole := n / 100
  let frac := (n % 100).natAbs
  toString whole ++ "." ++ (if frac < 10 then "0" else "") ++ toString frac

/-- One report line per subject:
`format!("{}: Person {} - {:.2}%", id, person.id, person.confidence_percentage)`. -/
def formatPersonLine (kp : Nat × Person) : String :=
  toString kp.1 ++ ": Person " ++ toString kp.2.id ++ " - " ++
    fmt2 kp.2.confidence_percentage ++ "%"

/-- The message submitted to the transport: the per-subject lines in
registry iteration order joined by newlines. -/
def reportMessage (m : Registry) : String :=
  String.intercalate "\n" (m.map formatPersonLine)

/-- The payloads handed to the MQTT transport for one frame: the single
spawned `client.publish` call when the frame changed and the new map is
non-empty, nothing otherwise. -/
def transportPayloads (changed : Bool) (m : Registry) : List String :=
  if changed then (if m.isEmpty then [] else [reportMessage m]) else []

/-- The local console output for one frame: the "no subjects" notice when
a changed frame has an empty map, the detection banner when it has a
non-empty one, nothing when the frame is unchanged. -/
def localNotices (changed : Bool) (m : Registry) : List String :=
  if changed then
    (if m.isEmpty then ["No people detected."]
     else ["Detected persons:\n" ++ reportMessage m])
  else []

/-- The TrackedSubject equality relation as the spec words it:
identities equal and the boxes overlap with positive intersection area. -/
def personEqP (p q : Person) : Prop :=
  p.id = q.id ∧ 0 < (Rect.inter p.bbox q.bbox).area

/-- Set-equality of two registries under the TrackedSubject equality
relation: every subject on either side is matched by one on the other. -/
def setEqPersons (a b : Registry) : Prop :=
  (∀ kp ∈ a, ∃ lq ∈ b, personEqP kp.2 lq.2) ∧
  (∀ lq ∈ b, ∃ kp ∈ a, personEqP kp.2 lq.2)

/-- Well-formedness of a registry: each stored person's id is its key,
each stored box passed the size filter with the confidence heuristic
applied to it, and keys are unique. -/
def RegistryWF (m : Registry) : Prop :=
  (∀ kp ∈ m, kp.2.id = kp.1 ∧ qualifies kp.2.bbox = true ∧
    kp.2.confidence_percentage = confidenceOf kp.2.bbox) ∧
  (m.map Prod.fst).Nodup

def demoBoxes : List Rect := [⟨0,0,10,10⟩, ⟨2,2,10,10⟩, ⟨100,100,5,5⟩]

def rectThin : Rect := ⟨0,0,0,5⟩

def demoZeroBoxes : List Rect := [rectThin, ⟨0,0,50,50⟩]

def demoReg : Registry := [(1, ⟨1, 20, ⟨0,0,100,200⟩⟩)]

theorem maxI_eq (a b : Int) : maxI a b = max a b := (max_def a b).symm

theorem minI_eq (a b : Int) : minI a b = min a b := (min_def a b).symm

theorem iou_eq_iouSpec (a b : Rect) : iou a b = iouSpec a b := by
  unfold iou iouSpec
  rw [Rat.divInt_eq_div]
  push_cast
  ring_nf

theorem minq_eq (a b : ℚ) : minq a b = min a b := (min_def a b).symm

theorem dominated_iff (boxes : List Rect) (τ : ℚ) (i : Nat) :
    dominated boxes τ i = true ↔
      ∃ j, j < boxes.length ∧ j ≠ i ∧
        τ < iou (boxes.getD i rectZero) (boxes.getD j rectZero) := by
  simp [dominated, List.any_eq_true, List.mem_range, and_assoc]

theorem minI_le_left (a b : Int) : minI a b ≤ a := by
  unfold minI
  split <;> omega

theorem le_maxI_left (a b : Int) : a ≤ maxI a b := by
  unfold maxI
  split <;> omega

theorem inter_area_zero_of_left_zero {b c : Rect} (hb : b.area = 0) :
    (Rect.inter b c).area = 0 := by
  unfold Rect.inter
  rcases mul_eq_zero.mp hb with hw | hh
  · have h1 : minI (b.x + b.width) (c.x + c.width) ≤ b.x + b.width :=
      minI_le_left _ _
    have h2 : b.x ≤ maxI b.x c.x := le_maxI_left _ _
    rw [if_pos (Or.inl (by omega))]
    rfl
  · have h1 : minI (b.y + b.height) (c.y + c.height) ≤ b.y + b.height :=
      minI_le_left _ _
    have h2 : b.y ≤ maxI b.y c.y := le_maxI_left _ _
    rw [if_pos (Or.inr (by omega))]
    rfl

theorem iou_of_left_area_zero {b c : Rect} (hb : b.area = 0) : iou b c = 0 := by
  unfold iou
  rw [inter_area_zero_of_left_zero hb, Rat.zero_divInt]

theorem map_getD_range {α : Type} (l : List α) (d : α) :
    (List.range l.length).map (fun i => l.getD i d) = l := by
  induction l with
  | nil => simp
  | cons a t ih =>
    rw [List.length_cons, List.range_succ_eq_map, List.map_cons, List.map_map]
    simp only [Function.comp_def, List.getD_cons_zero, List.getD_cons_succ]
    rw [ih]

theorem nms_all_kept (l : List Rect) (τ : ℚ)
    (h : ∀ p, p < l.length → dominated l τ p = false) :
    non_maximum_suppression l τ = l := by
  unfold non_maximum_suppression
  have hf : (List.range l.length).filter (fun i => ! dominated l τ i) =
      List.range l.length := by
    apply List.filter_eq_self.mpr
    intro i hi
    rw [h i (List.mem_range.mp hi)]
    rfl
  rw [hf, map_getD_range]

/-- No element of the suppression output is dominated inside the output:
positions of the output come from distinct input indices, so a dominating
peer in the output would already have dominated the box in the input. -/
theorem nms_output_undominated (boxes : List Rect) (τ : ℚ) :
    ∀ p, p < (non_maximum_suppression boxes τ).length →
      dominated (non_maximum_suppression boxes τ) τ p = false := by
  intro p hp
  by_contra hq
  have hq' : dominated (non_maximum_suppression boxes τ) τ p = true := by
    revert hq
    cases dominated (non_maximum_suppression boxes τ) τ p <;> simp
  obtain ⟨j, hj, hjp, hiou⟩ := (dominated_iff _ _ _).mp hq'
  have hKnd : ((List.range boxes.length).filter fun i => ! dominated boxes τ i).Nodup :=
    (List.nodup_range _).filter _
  have hlen : (non_maximum_suppression boxes τ).length =
      ((List.range boxes.length).filter fun i => ! dominated boxes τ i).length :=
    List.length_map _ _
  have hpK : p < ((List.range boxes.length).filter fun i => ! dominated boxes τ i).length := by
    rw [← hlen]
    exact hp
  have hjK : j < ((List.range boxes.length).filter fun i => ! dominated boxes τ i).length := by
    rw [← hlen]
    exact hj
  have hgp : (non_maximum_suppression boxes τ).getD p rectZero =
      boxes.getD (((List.range boxes.length).filter fun i => ! dominated boxes τ i)[p]) rectZero := by
    rw [List.getD_eq_getElem _ _ hp]
    exact List.getElem_map (fun i => boxes.getD i rectZero)
  have hgj : (non_maximum_suppression boxes τ).getD j rectZero =
      boxes.getD (((List.range boxes.length).filter fun i => ! dominated boxes τ i)[j]) rectZero := by
    rw [List.getD_eq_getElem _ _ hj]
    exact List.getElem_map (fun i => boxes.getD i rectZero)
  have hmemp := List.mem_filter.mp (List.getElem_mem hpK)
  have hmemj := List.mem_filter.mp (List.getElem_mem hjK)
  have hne : ((List.range boxes.length).filter fun i => ! dominated boxes τ i)[j] ≠
      ((List.range boxes.length).filter fun i => ! dominated boxes τ i)[p] := by
    intro he
    exact hjp ((hKnd.getElem_inj_iff).mp he)
  have hdomp : dominated boxes τ
      (((List.range boxes.length).filter fun i => ! dominated boxes τ i)[p]) = false := by
    have := hmemp.2
    revert this
    cases dominated boxes τ
      (((List.range boxes.length).filter fun i => ! dominated boxes τ i)[p]) <;> simp
  have hcontra : dominated boxes τ
      (((List.range boxes.length).filter fun i => ! dominated boxes τ i)[p]) = true := by
    apply (dominated_iff _ _ _).mpr
    refine ⟨((List.range boxes.length).filter fun i => ! dominated boxes τ i)[j],
      List.mem_range.mp hmemj.1, hne, ?_⟩
    rw [← hgp, ← hgj]
    exact hiou
  rw [hdomp] at hcontra
  exact Bool.false_ne_true hcontra

theorem personEq_iff (p q : Person) : personEq p q = true ↔ personEqP p q := by
  simp [personEq, personEqP]

theorem registryWF_nil : RegistryWF [] := by
  constructor
  · intro kp h
    exact absurd h (List.not_mem_nil kp)
  · simp

theorem lookupReg_mem {b : Registry} {k : Nat} {w : Person}
    (h : lookupReg b k = some w) : (k, w) ∈ b := by
  induction b with
  | nil => simp [lookupReg] at h
  | cons kp rest ih =>
    by_cases hk : kp.1 = k
    · simp only [lookupReg, if_pos hk] at h
      have hw : kp.2 = w := Option.some_inj.mp h
      have hkp : (k, w) = kp := by rw [← hk, ← hw]
      rw [hkp]
      exact List.mem_cons_self kp rest
    · simp only [lookupReg, if_neg hk] at h
      exact List.mem_cons_of_mem kp (ih h)

theorem lookupReg_of_mem {b : Registry} {k : Nat} {w : Person}
    (hnd : (b.map Prod.fst).Nodup) (h : (k, w) ∈ b) : lookupReg b k = some w := by
  induction b with
  | nil => exact absurd h (List.not_mem_nil _)
  | cons kp rest ih =>
    simp only [List.map_cons, List.nodup_cons] at hnd
    rcases List.mem_cons.mp h with h1 | h1
    · rw [← h1]
      simp [lookupReg]
    · have hk : kp.1 ≠ k := by
        intro he
        exact hnd.1 (he ▸ (List.mem_map.mpr ⟨(k, w), h1, rfl⟩))
      simp only [lookupReg, if_neg hk]
      exact ih hnd.2 h1

theorem key_unique {m : Registry} {k : Nat} {x y : Person}
    (hnd : (m.map Prod.fst).Nodup) (hx : (k, x) ∈ m) (hy : (k, y) ∈ m) : x = y := by
  have h1 := lookupReg_of_mem hnd hx
  have h2 := lookupReg_of_mem hnd hy
  exact Option.some_inj.mp (h1 ▸ h2)

theorem mem_insertReg {m : Registry} {k : Nat} {p : Person} {kp : Nat × Person}
    (h : kp ∈ insertReg m k p) : kp = (k, p) ∨ kp ∈ m := by
  induction m with
  | nil => simpa [insertReg] using h
  | cons hd rest ih =>
    by_cases hk : hd.1 = k
    · simp only [insertReg, if_pos hk] at h
      rcases List.mem_cons.mp h with h1 | h1
      · exact Or.inl h1
      · exact Or.inr (List.mem_cons_of_mem hd h1)
    · simp only [insertReg, if_neg hk] at h
      rcases List.mem_cons.mp h with h1 | h1
      · exact Or.inr (h1 ▸ List.mem_cons_self hd rest)
      · rcases ih h1 with h2 | h2
        · exact Or.inl h2
        · exact Or.inr (List.mem_cons_of_mem hd h2)

theorem keys_insertReg_sub {m : Registry} {k : Nat} {p : Person} {j : Nat}
    (h : j ∈ (insertReg m k p).map Prod.fst) : j = k ∨ j ∈ m.map Prod.fst := by
  rcases List.mem_map.mp h with ⟨kp, hmem, hj⟩
  rcases mem_insertReg hmem with h1 | h1
  · left
    rw [← hj, h1]
  · right
    exact List.mem_map.mpr ⟨kp, h1, hj⟩

theorem keys_insertReg_nodup {m : Registry} {k : Nat} {p : Person}
    (hnd : (m.map Prod.fst).Nodup) : ((insertReg m k p).map Prod.fst).Nodup := by
  induction m with
  | nil => simp [insertReg]
  | cons hd rest ih =>
    simp only [List.map_cons, List.nodup_cons] at hnd
    by_cases hk : hd.1 = k
    · simp only [insertReg, if_pos hk, List.map_cons, List.nodup_cons]
      exact ⟨hk ▸ hnd.1, hnd.2⟩
    · simp only [insertReg, if_neg hk, List.map_cons, List.nodup_cons]
      refine ⟨fun hc => ?_, ih hnd.2⟩
      rcases keys_insertReg_sub hc with h1 | h1
      · exact hk h1
      · exact hnd.1 h1

theorem insertReg_WF {m : Registry} {k : Nat} {p : Person}
    (hm : RegistryWF m) (hid : p.id = k) (hq : qualifies p.bbox = true)
    (hc : p.confidence_percentage = confidenceOf p.bbox) :
    RegistryWF (insertReg m k p) := by
  refine ⟨fun kp hkp => ?_, keys_insertReg_nodup hm.2⟩
  rcases mem_insertReg hkp with h1 | h1
  · rw [h1]
    exact ⟨hid, hq, hc⟩
  · exact hm.1 kp h1

theorem trackFold_WF (prev : Registry) (bs : List Rect) (acc : Registry × Nat)
    (hacc : RegistryWF acc.1) :
    RegistryWF ((bs.foldl (trackOne prev) acc).1) := by
  induction bs generalizing acc with
  | nil => exact hacc
  | cons b rest ih =>
    rw [List.foldl_cons]
    apply ih
    unfold trackOne
    by_cases hq : qualifies b = true
    · rw [if_pos hq]
      cases firstOverlapId prev b with
      | none => exact insertReg_WF hacc rfl hq rfl
      | some k => exact insertReg_WF hacc rfl hq rfl
    · rw [if_neg hq]
      exact hacc

theorem mapEqB_unfold (a b : Registry) :
    mapEqB a b = true ↔
      a.length = b.length ∧
      ∀ kp ∈ a, ∃ w, lookupReg b kp.1 = some w ∧ personEqP kp.2 w := by
  simp only [mapEqB, Bool.and_eq_true, beq_iff_eq, List.all_eq_true]
  constructor
  · rintro ⟨hlen, hall⟩
    refine ⟨hlen, fun kp hkp => ?_⟩
    have h := hall kp hkp
    cases hl : lookupReg b kp.1 with
    | none => rw [hl] at h; exact absurd h (by simp)
    | some w =>
      rw [hl] at h
      exact ⟨w, rfl, (personEq_iff kp.2 w).mp h⟩
  · rintro ⟨hlen, hall⟩
    refine ⟨hlen, fun kp hkp => ?_⟩
    obtain ⟨w, hw, hpe⟩ := hall kp hkp
    rw [hw]
    exact (personEq_iff kp.2 w).mpr hpe

theorem keys_len_eq_of_mutual_sub {a b : Registry}
    (ha : (a.map Prod.fst).Nodup) (hb : (b.map Prod.fst).Nodup)
    (hab : ∀ k, k ∈ a.map Prod.fst → k ∈ b.map Prod.fst)
    (hba : ∀ k, k ∈ b.map Prod.fst → k ∈ a.map Prod.fst) :
    a.length = b.length := by
  have hA : (a.map Prod.fst).toFinset = (b.map Prod.fst).toFinset := by
    apply Finset.Subset.antisymm
    · intro k hk
      exact List.mem_toFinset.mpr (hab k (List.mem_toFinset.mp hk))
    · intro k hk
      exact List.mem_toFinset.mpr (hba k (List.mem_toFinset.mp hk))
  have hca := List.toFinset_card_of_nodup ha
  have hcb := List.toFinset_card_of_nodup hb
  have : (a.map Prod.fst).length = (b.map Prod.fst).length := by
    rw [← hca, ← hcb, hA]
  simpa using this

/-- For well-formed registries, Rust `HashMap` equality under `Person::eq`
coincides with set-equality under the TrackedSubject equality relation. -/
theorem mapEqB_iff_setEq {a b : Registry} (ha : RegistryWF a) (hb : RegistryWF b) :
    mapEqB a b = true ↔ setEqPersons a b := by
  rw [mapEqB_unfold]
  constructor
  · rintro ⟨hlen, hall⟩
    have hdir1 : ∀ kp ∈ a, ∃ lq ∈ b, personEqP kp.2 lq.2 := by
      intro kp hkp
      obtain ⟨w, hw, hpe⟩ := hall kp hkp
      exact ⟨(kp.1, w), lookupReg_mem hw, hpe⟩
    refine ⟨hdir1, ?_⟩
    -- key sets coincide, so every entry of `b` is hit
    have hsub : ∀ k, k ∈ a.map Prod.fst → k ∈ b.map Prod.fst := by
      intro k hk
      obtain ⟨kp, hkp, hk1⟩ := List.mem_map.mp hk
      obtain ⟨w, hw, _⟩ := hall kp hkp
      exact List.mem_map.mpr ⟨(kp.1, w), lookupReg_mem hw, hk1⟩
    have hfin : (a.map Prod.fst).toFinset = (b.map Prod.fst).toFinset := by
      apply Finset.eq_of_subset_of_card_le
      · intro k hk
        exact List.mem_toFinset.mpr (hsub k (List.mem_toFinset.mp hk))
      · rw [List.toFinset_card_of_nodup ha.2, List.toFinset_card_of_nodup hb.2]
        simp [hlen]
    intro lq hlq
    have hkb : lq.1 ∈ b.map Prod.fst := List.mem_map.mpr ⟨lq, hlq, rfl⟩
    have hka : lq.1 ∈ a.map Prod.fst := by
      have := hfin ▸ List.mem_toFinset.mpr hkb
      exact List.mem_toFinset.mp this
    obtain ⟨kp, hkp, hk1⟩ := List.mem_map.mp hka
    obtain ⟨w, hw, hpe⟩ := hall kp hkp
    have hwb : (lq.1, w) ∈ b := hk1 ▸ lookupReg_mem hw
    have hlb : (lq.1, lq.2) ∈ b := hlq
    have hweq : w = lq.2 := key_unique hb.2 hwb hlb
    exact ⟨kp, hkp, hweq ▸ hpe⟩
  · rintro ⟨h1, h2⟩
    have hkey : ∀ kp ∈ a, ∀ lq ∈ b, personEqP kp.2 lq.2 → lq.1 = kp.1 := by
      intro kp hkp lq hlq hpe
      have hida := (ha.1 kp hkp).1
      have hidb := (hb.1 lq hlq).1
      rw [← hida, ← hidb, hpe.1]
    constructor
    · apply keys_len_eq_of_mutual_sub ha.2 hb.2
      · intro k hk
        obtain ⟨kp, hkp, hk1⟩ := List.mem_map.mp hk
        obtain ⟨lq, hlq, hpe⟩ := h1 kp hkp
        exact List.mem_map.mpr ⟨lq, hlq, (hkey kp hkp lq hlq hpe).trans hk1⟩
      · intro k hk
        obtain ⟨lq, hlq, hk1⟩ := List.mem_map.mp hk
        obtain ⟨kp, hkp, hpe⟩ := h2 lq hlq
        exact List.mem_map.mpr ⟨kp, hkp, ((hkey kp hkp lq hlq hpe).symm.trans hk1)⟩
    · intro kp hkp
      obtain ⟨lq, hlq, hpe⟩ := h1 kp hkp
      have hk1 : lq.1 = kp.1 := hkey kp hkp lq hlq hpe
      have : (kp.1, lq.2) ∈ b := by
        rw [← hk1]
        exact hlq
      exact ⟨lq.2, lookupReg_of_mem hb.2 this, hpe⟩

theorem trackFrame_WF (st : TrackState) (filtered : List Rect) :
    RegistryWF (trackFrame st filtered).newMap ∧
    RegistryWF (trackFrame st filtered).state.prevMap := by
  unfold trackFrame
  by_cases he : filtered.isEmpty
  · rw [if_pos he]
    by_cases hp : st.prevMap.isEmpty
    · rw [if_pos hp]
      have : st.prevMap = [] := List.isEmpty_iff.mp hp
      exact ⟨registryWF_nil, by simpa [this] using registryWF_nil⟩
    · rw [if_neg hp]
      exact ⟨registryWF_nil, registryWF_nil⟩
  · rw [if_neg he]
    have := trackFold_WF st.prevMap filtered ([], st.nextId) registryWF_nil
    exact ⟨this, this⟩

/-- C1: Non-maximum suppression returns exactly the boxes not dominated by
any peer: for every input list and threshold τ ∈ (0,1), box i is in the
output iff no j ≠ i in the input has
IoU(i,j) = area(i∩j)/(area(i)+area(j)−area(i∩j)) strictly above τ, and the
retained boxes appear in input order. -/
theorem nms_membership_characterization (boxes : List Rect) (τ : ℚ)
    (h0 : 0 < τ) (h1 : τ < 1) :
    non_maximum_suppression boxes τ =
      ((List.range boxes.length).filter fun i =>
          decide (¬ ∃ j, j < boxes.length ∧ j ≠ i ∧
            τ < iouSpec (boxes.getD i rectZero) (boxes.getD j rectZero))).map
        fun i => boxes.getD i rectZero := by
  unfold non_maximum_suppression
  congr 1
  apply List.filter_congr
  intro i _
  have hiff : dominated boxes τ i = true ↔
      (∃ j, j < boxes.length ∧ j ≠ i ∧
        τ < iouSpec (boxes.getD i rectZero) (boxes.getD j rectZero)) := by
    rw [dominated_iff]
    constructor
    · rintro ⟨j, hj, hji, hlt⟩
      exact ⟨j, hj, hji, iou_eq_iouSpec _ _ ▸ hlt⟩
    · rintro ⟨j, hj, hji, hlt⟩
      exact ⟨j, hj, hji, (iou_eq_iouSpec _ _).symm ▸ hlt⟩
  have hb : (! dominated boxes τ i) = decide (¬ dominated boxes τ i = true) := by
    cases dominated boxes τ i <;> simp
  rw [hb, decide_eq_decide]
  exact not_congr hiff

theorem nms_membership_characterization_witness :
    (0 < mkRat 1 2 ∧ mkRat 1 2 < 1) ∧
    non_maximum_suppression demoBoxes (mkRat 1 2) =
      ((List.range demoBoxes.length).filter fun i =>
          decide (¬ ∃ j, j < demoBoxes.length ∧ j ≠ i ∧
            mkRat 1 2 < iouSpec (demoBoxes.getD i rectZero) (demoBoxes.getD j rectZero))).map
        fun i => demoBoxes.getD i rectZero :=
  ⟨⟨by norm_num, by norm_num⟩,
    nms_membership_characterization demoBoxes (mkRat 1 2) (by norm_num) (by norm_num)⟩

/-- C7: a box with zero area has IoU 0 with every box (the 0/0 case is
guarded to 0), and such a box is always retained by suppression unless it
is literally identical to another input box. -/
theorem zero_area_retained (boxes : List Rect) (τ : ℚ) (b : Rect)
    (hτ : 0 < τ) (hb : b.area = 0) (hmem : b ∈ boxes)
    (huniq : boxes.count b ≤ 1) :
    (∀ c : Rect, iou b c = 0) ∧ b ∈ non_maximum_suppression boxes τ := by
  refine ⟨fun c => iou_of_left_area_zero hb, ?_⟩
  obtain ⟨i, hi, hget⟩ := List.mem_iff_getElem.mp hmem
  have hdom : dominated boxes τ i = false := by
    by_contra hq
    have hq' : dominated boxes τ i = true := by
      revert hq
      cases dominated boxes τ i <;> simp
    obtain ⟨j, hj, hji, hlt⟩ := (dominated_iff _ _ _).mp hq'
    rw [List.getD_eq_getElem _ _ hi, hget, iou_of_left_area_zero hb] at hlt
    exact absurd hlt (not_lt_of_gt hτ)
  unfold non_maximum_suppression
  apply List.mem_map.mpr
  refine ⟨i, List.mem_filter.mpr ⟨List.mem_range.mpr hi, by rw [hdom]; rfl⟩, ?_⟩
  rw [List.getD_eq_getElem _ _ hi, hget]

theorem zero_area_retained_witness :
    (0 < mkRat 1 2 ∧ rectThin.area = 0 ∧ rectThin ∈ demoZeroBoxes ∧
      demoZeroBoxes.count rectThin ≤ 1) ∧
    rectThin ∈ non_maximum_suppression demoZeroBoxes (mkRat 1 2) :=
  ⟨⟨by norm_num, by decide, by decide, by decide⟩,
    (zero_area_retained demoZeroBoxes (mkRat 1 2) rectThin (by norm_num) (by decide)
      (by decide) (by decide)).2⟩

/-- C8: suppression is idempotent: re-running `non_maximum_suppression` on
its own output with the same threshold returns the same boxes. -/
theorem nms_idempotent (boxes : List Rect) (τ : ℚ) :
    non_maximum_suppression (non_maximum_suppression boxes τ) τ =
      non_maximum_suppression boxes τ :=
  nms_all_kept _ τ (nms_output_undominated boxes τ)

theorem trackFrame_else (st : TrackState) (filtered : List Rect)
    (hne : filtered.isEmpty = false) :
    trackFrame st filtered =
      ⟨(filtered.foldl (trackOne st.prevMap) ([], st.nextId)).1,
        ! mapEqB st.prevMap (filtered.foldl (trackOne st.prevMap) ([], st.nextId)).1,
        ⟨(filtered.foldl (trackOne st.prevMap) ([], st.nextId)).1,
          (filtered.foldl (trackOne st.prevMap) ([], st.nextId)).2⟩⟩ := by
  unfold trackFrame
  rw [hne]
  rfl

/-- C2: in a frame whose qualifying box set is non-empty, the tracker
signals a change iff the new registry is not set-equal to the previous one
under the TrackedSubject equality relation; in particular an entry that
keeps its identity but loses overlap with its previous box forces a
change. -/
theorem changed_iff_not_setEq (st : TrackState) (filtered : List Rect)
    (hWF : RegistryWF st.prevMap) (hq : ∃ r ∈ filtered, qualifies r = true) :
    ((trackFrame st filtered).hasChanged = true ↔
      ¬ setEqPersons st.prevMap (trackFrame st filtered).newMap) ∧
    (∀ k p q, (k, p) ∈ st.prevMap → (k, q) ∈ (trackFrame st filtered).newMap →
      ¬ 0 < (Rect.inter p.bbox q.bbox).area →
      (trackFrame st filtered).hasChanged = true) := by
  have hne : filtered.isEmpty = false := by
    obtain ⟨r, hr, -⟩ := hq
    cases filtered with
    | nil => exact absurd hr (List.not_mem_nil r)
    | cons a t => rfl
  have hWFnew : RegistryWF (trackFrame st filtered).newMap := (trackFrame_WF st filtered).1
  have hm := mapEqB_iff_setEq hWF hWFnew
  have hch : (trackFrame st filtered).hasChanged =
      ! mapEqB st.prevMap (trackFrame st filtered).newMap := by
    rw [trackFrame_else st filtered hne]
  have hchiff : (trackFrame st filtered).hasChanged = true ↔
      ¬ setEqPersons st.prevMap (trackFrame st filtered).newMap := by
    rw [hch]
    cases hM : mapEqB st.prevMap (trackFrame st filtered).newMap with
    | false =>
      simp only [Bool.not_false, true_iff]
      intro hset
      have := hm.mpr hset
      rw [hM] at this
      exact Bool.false_ne_true this
    | true =>
      simp only [Bool.not_true]
      constructor
      · intro hfalse
        exact absurd hfalse (by simp)
      · intro hns
        exact absurd (hm.mp hM) hns
  refine ⟨hchiff, fun k p q hp hq' hno => ?_⟩
  apply hchiff.mpr
  intro hset
  obtain ⟨kp, hkp, hpe⟩ := hset.2 (k, q) hq'
  have hqid : q.id = k := (hWFnew.1 (k, q) hq').1
  have hkpid : kp.2.id = kp.1 := (hWF.1 kp hkp).1
  have hk1 : kp.1 = k := by rw [← hkpid, hpe.1, hqid]
  have hkp' : (k, kp.2) ∈ st.prevMap := by
    rw [← hk1]
    exact hkp
  have hkp2 : kp.2 = p := key_unique hWF.2 hkp' hp
  exact hno (hkp2 ▸ hpe.2)

theorem changed_iff_not_setEq_witness :
    (RegistryWF ([] : Registry) ∧ qualifies ⟨0,0,100,200⟩ = true) ∧
    ((trackFrame ⟨[], 1⟩ [⟨0,0,100,200⟩]).hasChanged = true ↔
      ¬ setEqPersons [] (trackFrame ⟨[], 1⟩ [⟨0,0,100,200⟩]).newMap) :=
  ⟨⟨registryWF_nil, by decide⟩,
    (changed_iff_not_setEq ⟨[], 1⟩ [⟨0,0,100,200⟩] registryWF_nil
      ⟨⟨0,0,100,200⟩, List.mem_cons_self _ _, by decide⟩).1⟩

theorem trackFold_skip (prev : Registry) (bs : List Rect) (acc : Registry × Nat)
    (h : ∀ r ∈ bs, qualifies r = false) :
    bs.foldl (trackOne prev) acc = acc := by
  induction bs generalizing acc with
  | nil => rfl
  | cons b rest ih =>
    rw [List.foldl_cons]
    have hb : qualifies b = false := h b (List.mem_cons_self b rest)
    have hone : trackOne prev acc b = acc := by
      unfold trackOne
      rw [if_neg (by rw [hb]; exact Bool.false_ne_true)]
    rw [hone]
    exact ih _ (fun r hr => h r (List.mem_cons_of_mem b hr))

theorem mapEqB_nil_right {m : Registry} (h : m ≠ []) : mapEqB m [] = false := by
  cases m with
  | nil => exact absurd rfl h
  | cons kp rest => rfl

/-- C3 (counterexample): a frame whose suppressed list contains only a box
failing the size filter yields zero qualifying detections, empties the
registry and reports a change, but does not reset the identity counter
to 1, contrary to the claim. -/
theorem counter_not_reset_cex :
    qualifies ⟨0,0,10,10⟩ = false ∧
    (trackFrame ⟨[(1, ⟨1, 20, ⟨0,0,100,200⟩⟩)], 2⟩ [⟨0,0,10,10⟩]).newMap = [] ∧
    (trackFrame ⟨[(1, ⟨1, 20, ⟨0,0,100,200⟩⟩)], 2⟩ [⟨0,0,10,10⟩]).hasChanged = true ∧
    (trackFrame ⟨[(1, ⟨1, 20, ⟨0,0,100,200⟩⟩)], 2⟩ [⟨0,0,10,10⟩]).state.nextId ≠ 1 := by
  decide

/-- C3 (amended): when the suppressed box list itself is empty and the
registry is non-empty, the tracker clears the registry, resets the counter
to 1 and reports a change; a further empty frame reports no change.  When
the suppressed list is non-empty but no box passes the size filter, the
registry still empties and a change is still reported, but the counter
keeps its value. -/
theorem empty_suppressed_reset (st : TrackState) (h : st.prevMap ≠ []) :
    trackFrame st [] = ⟨[], true, ⟨[], 1⟩⟩ ∧
    (∀ n : Nat, trackFrame ⟨[], n⟩ [] = ⟨[], false, ⟨[], n⟩⟩) ∧
    (∀ bs : List Rect, bs ≠ [] → (∀ r ∈ bs, qualifies r = false) →
      trackFrame st bs = ⟨[], true, ⟨[], st.nextId⟩⟩) := by
  refine ⟨?_, fun n => rfl, fun bs hbs hall => ?_⟩
  · unfold trackFrame
    have hie : st.prevMap.isEmpty = false := by
      cases hm : st.prevMap with
      | nil => exact absurd hm h
      | cons kp rest => rfl
    simp [hie]
  · have hne : bs.isEmpty = false := by
      cases bs with
      | nil => exact absurd rfl hbs
      | cons a t => rfl
    rw [trackFrame_else st bs hne, trackFold_skip st.prevMap bs ([], st.nextId) hall,
      mapEqB_nil_right h]
    rfl

theorem empty_suppressed_reset_witness :
    ((⟨[(1, ⟨1, 20, ⟨0,0,100,200⟩⟩)], 3⟩ : TrackState).prevMap ≠ []) ∧
    trackFrame ⟨[(1, ⟨1, 20, ⟨0,0,100,200⟩⟩)], 3⟩ [] = ⟨[], true, ⟨[], 1⟩⟩ :=
  ⟨by decide, (empty_suppressed_reset ⟨[(1, ⟨1, 20, ⟨0,0,100,200⟩⟩)], 3⟩ (by decide)).1⟩

theorem firstOverlapId_eq_find (prev : Registry) (r : Rect) :
    firstOverlapId prev r =
      (prev.find? fun kp => decide (0 < (Rect.inter kp.2.bbox r).area)).map Prod.fst := by
  induction prev with
  | nil => rfl
  | cons kp rest ih =>
    by_cases h : 0 < (Rect.inter kp.2.bbox r).area
    · rw [List.find?_cons_of_pos _ (by rw [decide_eq_true_eq]; exact h)]
      unfold firstOverlapId
      rw [if_pos h]
      rfl
    · rw [List.find?_cons_of_neg _ (by rw [decide_eq_true_eq]; exact h)]
      unfold firstOverlapId
      rw [if_neg h]
      exact ih

/-- C4: a qualifying box reuses the identity of the first previous-registry
entry whose box overlaps it with positive intersection area, and otherwise
takes the current counter value as a fresh identity, advancing the counter;
a box failing the size filter leaves the frame's registry and counter
untouched, so it is never tracked and never reported. -/
theorem track_box_matching (prev : Registry) (acc : Registry × Nat) (r : Rect) :
    (qualifies r = true →
      trackOne prev acc r =
        match (prev.find? fun kp => decide (0 < (Rect.inter kp.2.bbox r).area)).map Prod.fst with
        | some k => (insertReg acc.1 k ⟨k, confidenceOf r, r⟩, acc.2)
        | none => (insertReg acc.1 acc.2 ⟨acc.2, confidenceOf r, r⟩, acc.2 + 1)) ∧
    (qualifies r = false → trackOne prev acc r = acc) := by
  constructor
  · intro hq
    unfold trackOne
    rw [if_pos hq, firstOverlapId_eq_find]
  · intro hq
    unfold trackOne
    rw [if_neg (by rw [hq]; exact Bool.false_ne_true)]

theorem track_box_matching_witness :
    (qualifies ⟨0,0,61,121⟩ = true ∧ qualifies ⟨0,0,10,10⟩ = false) ∧
    trackOne [] ([], 5) ⟨0,0,61,121⟩ =
      ([(5, ⟨5, Rat.divInt 7381 1000, ⟨0,0,61,121⟩⟩)], 6) ∧
    trackOne [] ([], 5) ⟨0,0,10,10⟩ = ([], 5) :=
  ⟨⟨by decide, by decide⟩,
    by
      rw [(track_box_matching [] ([], 5) ⟨0,0,61,121⟩).1 (by decide)]
      decide,
    (track_box_matching [] ([], 5) ⟨0,0,10,10⟩).2 (by decide)⟩

/-- C5: publish gating: when a frame changed and the new registry is
non-empty, exactly one payload — the per-subject lines in registry
iteration order joined by newlines — goes to the transport; when it
changed with an empty registry, only the local "no subjects" notice is
emitted and nothing reaches the transport; an unchanged frame emits
nothing at all. -/
theorem publish_gating (c : Bool) (m : Registry) :
    (c = true → m ≠ [] → transportPayloads c m = [reportMessage m] ∧
      reportMessage m = String.intercalate "\n" (m.map formatPersonLine)) ∧
    (c = true → m = [] → transportPayloads c m = [] ∧
      localNotices c m = ["No people detected."]) ∧
    (c = false → transportPayloads c m = [] ∧ localNotices c m = []) := by
  refine ⟨fun hc hm => ?_, fun hc hm => ?_, fun hc => ?_⟩
  · subst hc
    have hie : m.isEmpty = false := by
      cases m with
      | nil => exact absurd rfl hm
      | cons kp rest => rfl
    constructor
    · unfold transportPayloads
      rw [if_pos rfl, hie]
      rfl
    · rfl
  · subst hc
    subst hm
    exact ⟨rfl, rfl⟩
  · subst hc
    exact ⟨rfl, rfl⟩

theorem publish_gating_witness :
    (transportPayloads true demoReg = [reportMessage demoReg] ∧
      reportMessage demoReg = String.intercalate "\n" (demoReg.map formatPersonLine)) ∧
    (transportPayloads true [] = [] ∧ localNotices true [] = ["No people detected."]) ∧
    (transportPayloads false demoReg = [] ∧ localNotices false demoReg = []) :=
  ⟨(publish_gating true demoReg).1 rfl (by decide),
    (publish_gating true []).2.1 rfl rfl,
    (publish_gating false demoReg).2.2 rfl⟩

/-- C6 (counterexample): with previous registry {id 1, confidence 50,
box (0,0,100,200)} and a current frame producing the overlapping
qualifying box (10,10,100,200) with computed confidence 20 ≠ 50, the
tracker reuses identity 1 but still reports "unchanged": a differing
confidence with same identity and overlapping box does NOT force
"changed", because `Person::eq` never compares confidence. -/
theorem confidence_ignored_cex :
    (trackFrame ⟨[(1, ⟨1, 50, ⟨0,0,100,200⟩⟩)], 2⟩ [⟨10,10,100,200⟩]).newMap =
      [(1, ⟨1, 20, ⟨10,10,100,200⟩⟩)] ∧
    (trackFrame ⟨[(1, ⟨1, 50, ⟨0,0,100,200⟩⟩)], 2⟩ [⟨10,10,100,200⟩]).hasChanged = false ∧
    (50 : ℚ) ≠ 20 ∧
    0 < (Rect.inter ⟨0,0,100,200⟩ ⟨10,10,100,200⟩).area := by
  decide

/-- C6 (amended): with previous registry {id 1, box (0,0,100,200)} and a
current frame producing the single qualifying box (10,10,100,200), the
tracker reuses identity 1 and reports "unchanged" regardless of the
previous confidence value: confidence plays no role in the comparison. -/
theorem overlap_same_id_unchanged (c : ℚ) (n : Nat) :
    (trackFrame ⟨[(1, ⟨1, c, ⟨0,0,100,200⟩⟩)], n⟩ [⟨10,10,100,200⟩]).newMap =
      [(1, ⟨1, 20, ⟨10,10,100,200⟩⟩)] ∧
    (trackFrame ⟨[(1, ⟨1, c, ⟨0,0,100,200⟩⟩)], n⟩ [⟨10,10,100,200⟩]).hasChanged = false :=
  ⟨rfl, rfl⟩

theorem confidenceOf_range (r : Rect) (hq : qualifies r = true) :
    0 ≤ confidenceOf r ∧ confidenceOf r ≤ 100 := by
  simp only [qualifies, Bool.and_eq_true, decide_eq_true_eq] at hq
  have harea : (0:Int) ≤ r.area := le_of_lt (mul_pos (by omega) (by omega))
  have h0 : (0:ℚ) ≤ Rat.divInt r.area 1000 := by
    rw [Rat.divInt_eq_div]
    apply div_nonneg
    · exact_mod_cast harea
    · norm_num
  unfold confidenceOf minq
  constructor
  · split
    · exact h0
    · norm_num
  · split
    · next hle => exact hle
    · next hle => norm_num

/-- C9 (counterexample): the qualifying box (0,0,61,121) is stored with
confidence 7381/1000 = 7.381, which exceeds 1 — confidences are
percent-scaled (area/1000 clamped at 100), not values in [0, 1]. -/
theorem confidence_exceeds_one_cex :
    qualifies ⟨0,0,61,121⟩ = true ∧
    (trackFrame ⟨[], 1⟩ [⟨0,0,61,121⟩]).newMap =
      [(1, ⟨1, Rat.divInt 7381 1000, ⟨0,0,61,121⟩⟩)] ∧
    (1 : ℚ) < Rat.divInt 7381 1000 := by
  decide

/-- C9 (amended): every confidence stored in the registry (and hence
reported) lies in [0, 100]. -/
theorem stored_confidence_range (st : TrackState) (filtered : List Rect)
    (kp : Nat × Person) (h : kp ∈ (trackFrame st filtered).newMap) :
    0 ≤ kp.2.confidence_percentage ∧ kp.2.confidence_percentage ≤ 100 := by
  have hWF := (trackFrame_WF st filtered).1
  obtain ⟨-, hq, hc⟩ := hWF.1 kp h
  rw [hc]
  exact confidenceOf_range _ hq

theorem stored_confidence_range_witness :
    (1, (⟨1, Rat.divInt 7381 1000, ⟨0,0,61,121⟩⟩ : Person)) ∈
      (trackFrame ⟨[], 1⟩ [⟨0,0,61,121⟩]).newMap ∧
    (0 ≤ Rat.divInt 7381 1000 ∧ Rat.divInt 7381 1000 ≤ 100) :=
  ⟨by decide,
    stored_confidence_range ⟨[], 1⟩ [⟨0,0,61,121⟩]
      (1, ⟨1, Rat.divInt 7381 1000, ⟨0,0,61,121⟩⟩) (by decide)⟩

/-- C10: after every frame's update the registry is well-formed: each
stored person's id equals its map key, each stored box passed the size
filter (width > 60 and height > 120), and keys are unique, so no two
entries share an identity. -/
theorem registry_wellformed (st : TrackState) (filtered : List Rect) :
    (∀ kp ∈ (trackFrame st filtered).state.prevMap,
      kp.2.id = kp.1 ∧ 60 < kp.2.bbox.width ∧ 120 < kp.2.bbox.height) ∧
    ((trackFrame st filtered).state.prevMap.map Prod.fst).Nodup := by
  have h := (trackFrame_WF st filtered).2
  refine ⟨fun kp hkp => ?_, h.2⟩
  obtain ⟨hid, hq, -⟩ := h.1 kp hkp
  simp only [qualifies, Bool.and_eq_true, decide_eq_true_eq] at hq
  exact ⟨hid, hq.1, hq.2⟩
